import Mathlib

/-!
Verification of the `files` package of `linctl` (markdown image asset round-trip):
shallow embedding of `pkg/files/files.go` (and its caller `UploadFileToLinear`)
over `List Char` strings, with HTTP modelled as a request-to-response oracle and
the filesystem as explicit state.
-/

set_option autoImplicit false
set_option linter.unusedVariables false

namespace Linctl

/-! ## Basic string utilities -/

/-- Go `unicode.IsSpace`: the White_Space code points (ASCII spaces, NEL, NBSP,
and the Unicode space separators). -/
def goIsSpace (c : Char) : Bool :=
  [9, 10, 11, 12, 13, 32, 0x85, 0xA0, 0x1680, 0x2000, 0x2001, 0x2002, 0x2003,
    0x2004, 0x2005, 0x2006, 0x2007, 0x2008, 0x2009, 0x200A, 0x2028, 0x2029,
    0x202F, 0x205F, 0x3000].contains c.toNat

/-- Go `strings.TrimSpace`: drop leading and trailing white space. -/
def trimSpace (l : List Char) : List Char :=
  ((l.dropWhile goIsSpace).reverse.dropWhile goIsSpace).reverse

/-- Characters allowed by `SanitizeFilename`'s character class `[a-zA-Z0-9._-]`. -/
def isSafeChar (c : Char) : Bool :=
  ('a' ≤ c && c ≤ 'z') || ('A' ≤ c && c ≤ 'Z') || ('0' ≤ c && c ≤ '9') ||
    c == '.' || c == '_' || c == '-'

/-- Embedding of Go `SanitizeFilename` (pkg/files/files.go): replace every
character outside `[a-zA-Z0-9._-]` with an underscore, then truncate to 200.
(After replacement every character is ASCII, so Go's byte-indexed truncation
agrees with character truncation.) -/
def SanitizeFilename (name : List Char) : List Char :=
  let safe := name.map (fun c => if isSafeChar c then c else '_')
  if safe.length > 200 then safe.take 200 else safe

/-- Rendering of a Form-A image reference, Go `fmt.Sprintf("![%s](%s)", altText, imageURL)`. -/
def renderImage (altText imageURL : List Char) : List Char :=
  '!' :: '[' :: (altText ++ ']' :: '(' :: (imageURL ++ [')']))

/-- Embedding of Go `InjectImageIntoMarkdown` (pkg/files/files.go). -/
def InjectImageIntoMarkdown (markdown imageURL altText : List Char) : List Char :=
  let alt := if altText = [] then "image".data else altText
  let imageMarkdown := renderImage alt imageURL
  if trimSpace markdown = [] then imageMarkdown
  else markdown ++ '\n' :: '\n' :: imageMarkdown

/-! ## Helper lemmas for sanitization -/

theorem safeChar_map (a : Char) :
    isSafeChar (if isSafeChar a = true then a else '_') = true := by
  by_cases h : isSafeChar a = true
  · rw [if_pos h]; exact h
  · rw [if_neg h]; decide

theorem mem_sanitize_safe (name : List Char) :
    ∀ c ∈ SanitizeFilename name, isSafeChar c = true := by
  intro c hc
  unfold SanitizeFilename at hc
  simp only at hc
  split at hc
  · obtain ⟨a, _, ha⟩ := List.mem_map.mp (List.mem_of_mem_take hc)
    exact ha ▸ safeChar_map a
  · obtain ⟨a, _, ha⟩ := List.mem_map.mp hc
    exact ha ▸ safeChar_map a

theorem sanitize_length_le (name : List Char) :
    (SanitizeFilename name).length ≤ 200 := by
  unfold SanitizeFilename
  simp only
  split
  · exact List.length_take_le 200 _
  · omega

theorem map_id_of_safe (l : List Char) (h : ∀ c ∈ l, isSafeChar c = true) :
    l.map (fun c => if isSafeChar c then c else '_') = l := by
  induction l with
  | nil => rfl
  | cons x xs ih =>
    have hx := h x (by simp)
    simp only [List.map_cons, hx, if_pos]
    exact congrArg _ (ih fun c hc => h c (List.mem_cons_of_mem _ hc))

theorem sanitize_fixed (l : List Char) (hsafe : ∀ c ∈ l, isSafeChar c = true)
    (hlen : l.length ≤ 200) : SanitizeFilename l = l := by
  unfold SanitizeFilename
  simp only
  rw [map_id_of_safe l hsafe]
  rw [if_neg (by omega)]

/-- Claim C5: `SanitizeFilename` is idempotent, its output never exceeds 200
characters, every output character lies in `[A-Za-z0-9._-]`, and it is a total
deterministic function. -/
theorem claim_C5_sanitize_props (s : List Char) :
    SanitizeFilename (SanitizeFilename s) = SanitizeFilename s
    ∧ (SanitizeFilename s).length ≤ 200
    ∧ ∀ c ∈ SanitizeFilename s, isSafeChar c = true :=
  ⟨sanitize_fixed _ (mem_sanitize_safe s) (sanitize_length_le s),
   sanitize_length_le s, mem_sanitize_safe s⟩

theorem claim_C5_sanitize_props_witness :
    SanitizeFilename (SanitizeFilename "a b".data) = SanitizeFilename "a b".data
    ∧ (SanitizeFilename "a b".data).length ≤ 200
    ∧ isSafeChar 'a' = true :=
  ⟨(claim_C5_sanitize_props "a b".data).1,
   (claim_C5_sanitize_props "a b".data).2.1,
   (claim_C5_sanitize_props "a b".data).2.2 'a' (by decide)⟩

/-! ## Claim C6: InjectImageIntoMarkdown -/

/-- Claim C6: `InjectImageIntoMarkdown` substitutes the literal alt text
"image" when the alt text is empty; on a document that trims to empty it
returns just the Form-A reference; otherwise it appends the reference after a
blank line, leaving the document unchanged; including the two concrete cases. -/
theorem claim_C6_inject (markdown imageURL altText : List Char) :
    (trimSpace markdown = [] →
      InjectImageIntoMarkdown markdown imageURL altText
        = renderImage (if altText = [] then "image".data else altText) imageURL)
    ∧ (trimSpace markdown ≠ [] →
      InjectImageIntoMarkdown markdown imageURL altText
        = markdown ++ '\n' :: '\n' ::
            renderImage (if altText = [] then "image".data else altText) imageURL)
    ∧ InjectImageIntoMarkdown [] "http://x/a.png".data []
        = "![image](http://x/a.png)".data
    ∧ InjectImageIntoMarkdown "body text".data "http://x/a.png".data "cat".data
        = "body text\n\n![cat](http://x/a.png)".data := by
  refine ⟨?_, ?_, by decide, by decide⟩
  · intro h
    simp [InjectImageIntoMarkdown, h]
  · intro h
    simp [InjectImageIntoMarkdown, h]

theorem claim_C6_inject_witness :
    InjectImageIntoMarkdown "  ".data "http://y".data "cat".data
      = renderImage (if "cat".data = ([] : List Char) then "image".data else "cat".data)
          "http://y".data
    ∧ InjectImageIntoMarkdown "doc".data "http://y".data "cat".data
      = "doc".data ++ '\n' :: '\n' ::
          renderImage (if "cat".data = ([] : List Char) then "image".data else "cat".data)
            "http://y".data :=
  ⟨(claim_C6_inject "  ".data "http://y".data "cat".data).1 (by decide),
   (claim_C6_inject "doc".data "http://y".data "cat".data).2.1 (by decide)⟩

/-! ## Scanners for the two image-reference regexes

Go `ExtractImagesFromMarkdown` uses two regexes with `FindAllStringSubmatch`
(leftmost match, then continue after the end of each match):
Form A `!\[([^\]]*)\]\(([^)]+)\)` and Form B `<img[^>]+src="([^"]+)"`.
Since each character class excludes the delimiter that follows it, a greedy
`[^c]*`/`[^c]+` followed by the literal `c` matches exactly up to the first
occurrence of `c`; `splitAtChar` is that step. -/

/-- Split at the first occurrence of `c`: `some (pre, post)` with
`l = pre ++ c :: post` and `c ∉ pre`; `none` when `c` does not occur. -/
def splitAtChar (c : Char) : List Char → Option (List Char × List Char)
  | [] => none
  | x :: xs =>
    if x = c then some ([], xs)
    else
      match splitAtChar c xs with
      | some (pre, post) => some (x :: pre, post)
      | none => none

theorem splitAtChar_sound {c : Char} : ∀ {l pre post : List Char},
    splitAtChar c l = some (pre, post) → l = pre ++ c :: post ∧ c ∉ pre := by
  intro l
  induction l with
  | nil => intro pre post h; simp [splitAtChar] at h
  | cons x xs ih =>
    intro pre post h
    rw [splitAtChar] at h
    split at h
    · rename_i hx
      cases h
      subst hx
      exact ⟨rfl, by simp⟩
    · rename_i hx
      split at h
      · rename_i p q heq
        cases h
        obtain ⟨h1, h2⟩ := ih heq
        refine ⟨by rw [h1]; rfl, ?_⟩
        intro hm
        rcases List.mem_cons.mp hm with h3 | h3
        · exact hx h3.symm
        · exact h2 h3
      · exact absurd h (by simp)

theorem splitAtChar_append {c : Char} : ∀ (pre post : List Char), c ∉ pre →
    splitAtChar c (pre ++ c :: post) = some (pre, post) := by
  intro pre
  induction pre with
  | nil => intro post _; simp [splitAtChar]
  | cons x xs ih =>
    intro post h
    have hx : ¬ x = c := fun he => h (he ▸ List.mem_cons_self x xs)
    have hxs : c ∉ xs := fun hm => h (List.mem_cons_of_mem x hm)
    rw [List.cons_append, splitAtChar, if_neg hx, ih post hxs]

/-- Attempt to match `!\[([^\]]*)\]\(([^)]+)\)` at the head of the input;
on success return the submatches (alt text, URL) and the rest of the input. -/
def matchFormA (l : List Char) : Option (List Char × List Char × List Char) :=
  match l with
  | c1 :: c2 :: rest =>
    if c1 = '!' ∧ c2 = '[' then
      (splitAtChar ']' rest).bind fun (alt, rest2) =>
        match rest2 with
        | c3 :: rest3 =>
          if c3 = '(' then
            (splitAtChar ')' rest3).bind fun (url, rest4) =>
              if url = [] then none else some (alt, url, rest4)
          else none
        | [] => none
    else none
  | _ => none

theorem matchFormA_sound {l alt url rest : List Char}
    (h : matchFormA l = some (alt, url, rest)) :
    l = renderImage alt url ++ rest ∧ ']' ∉ alt ∧ ')' ∉ url ∧ url ≠ [] := by
  match l with
  | [] => simp [matchFormA] at h
  | [c1] => simp [matchFormA] at h
  | c1 :: c2 :: r =>
    rw [matchFormA] at h
    split_ifs at h with h12
    obtain ⟨rfl, rfl⟩ := h12
    obtain ⟨⟨a2, r2⟩, heq, h⟩ := Option.bind_eq_some.mp h
    obtain ⟨hr, hmem⟩ := splitAtChar_sound heq
    match r2, h with
    | c3 :: r3, h =>
      simp only at h
      split_ifs at h with h3
      subst h3
      obtain ⟨⟨u, r4⟩, heq2, h⟩ := Option.bind_eq_some.mp h
      obtain ⟨hr3, hmem2⟩ := splitAtChar_sound heq2
      split_ifs at h with h4
      cases h
      subst hr3 hr
      refine ⟨?_, hmem, hmem2, h4⟩
      simp [renderImage]

theorem matchFormA_length {l alt url rest : List Char}
    (h : matchFormA l = some (alt, url, rest)) : rest.length < l.length := by
  have hs := (matchFormA_sound h).1
  have := congrArg List.length hs
  simp [renderImage] at this
  omega

/-- Attempt to match the tail `src="([^"]+)"` of the Form B regex at the head
of the input; on success return the submatch and the rest of the input. -/
def trySrcB (l : List Char) : Option (List Char × List Char) :=
  match l with
  | c1 :: c2 :: c3 :: c4 :: c5 :: rest =>
    if c1 = 's' ∧ c2 = 'r' ∧ c3 = 'c' ∧ c4 = '=' ∧ c5 = '"' then
      (splitAtChar '"' rest).bind fun (url, rest2) =>
        if url = [] then none else some (url, rest2)
    else none
  | _ => none

theorem trySrcB_sound {l url rest : List Char} (h : trySrcB l = some (url, rest)) :
    l = 's' :: 'r' :: 'c' :: '=' :: '"' :: (url ++ '"' :: rest)
      ∧ '"' ∉ url ∧ url ≠ [] := by
  match l with
  | [] => simp [trySrcB] at h
  | [c1] => simp [trySrcB] at h
  | [c1, c2] => simp [trySrcB] at h
  | [c1, c2, c3] => simp [trySrcB] at h
  | [c1, c2, c3, c4] => simp [trySrcB] at h
  | c1 :: c2 :: c3 :: c4 :: c5 :: r =>
    rw [trySrcB] at h
    split_ifs at h with h5
    obtain ⟨rfl, rfl, rfl, rfl, rfl⟩ := h5
    obtain ⟨⟨u, r2⟩, heq, h⟩ := Option.bind_eq_some.mp h
    obtain ⟨hr, hmem⟩ := splitAtChar_sound heq
    simp only at h
    split_ifs at h with h4
    cases h
    subst hr
    exact ⟨rfl, hmem, h4⟩

/-- Match the middle `[^>]*src="([^"]+)"` of the Form B regex, with the star
greedy: extending the gap is preferred over matching `src="` at the current
position, as in the regex engine's backtracking order. -/
def matchGapSrc : List Char → Option (List Char × List Char)
  | [] => none
  | c :: cs =>
    if c = '>' then trySrcB (c :: cs)
    else
      match matchGapSrc cs with
      | some r => some r
      | none => trySrcB (c :: cs)

theorem matchGapSrc_sound : ∀ {l url rest : List Char},
    matchGapSrc l = some (url, rest) →
    ∃ gap, ('>' ∉ gap) ∧
      l = gap ++ 's' :: 'r' :: 'c' :: '=' :: '"' :: (url ++ '"' :: rest)
      ∧ '"' ∉ url ∧ url ≠ [] := by
  intro l
  induction l with
  | nil => intro url rest h; simp [matchGapSrc] at h
  | cons c cs ih =>
    intro url rest h
    rw [matchGapSrc] at h
    split_ifs at h with hgt
    · obtain ⟨hr, hmem, hne⟩ := trySrcB_sound h
      exact ⟨[], by simp, by simpa using hr, hmem, hne⟩
    · split at h
      · rename_i r heq
        cases h
        obtain ⟨gap, hg, hr, hmem, hne⟩ := ih heq
        refine ⟨c :: gap, ?_, by simp [hr], hmem, hne⟩
        intro hm
        rcases List.mem_cons.mp hm with h3 | h3
        · exact hgt h3.symm
        · exact hg h3
      · obtain ⟨hr, hmem, hne⟩ := trySrcB_sound h
        exact ⟨[], by simp, by simpa using hr, hmem, hne⟩

/-- Attempt to match `<img[^>]+src="([^"]+)"` at the head of the input;
on success return the submatch (the `src` URL) and the rest of the input. -/
def matchFormB (l : List Char) : Option (List Char × List Char) :=
  match l with
  | c1 :: c2 :: c3 :: c4 :: c5 :: cs =>
    if c1 = '<' ∧ c2 = 'i' ∧ c3 = 'm' ∧ c4 = 'g' then
      if c5 = '>' then none else matchGapSrc cs
    else none
  | _ => none

theorem matchFormB_sound {l url rest : List Char}
    (h : matchFormB l = some (url, rest)) :
    ∃ gap, gap ≠ [] ∧ '>' ∉ gap ∧
      l = '<' :: 'i' :: 'm' :: 'g' ::
        (gap ++ 's' :: 'r' :: 'c' :: '=' :: '"' :: (url ++ '"' :: rest))
      ∧ '"' ∉ url ∧ url ≠ [] := by
  match l with
  | [] => simp [matchFormB] at h
  | [c1] => simp [matchFormB] at h
  | [c1, c2] => simp [matchFormB] at h
  | [c1, c2, c3] => simp [matchFormB] at h
  | [c1, c2, c3, c4] => simp [matchFormB] at h
  | c1 :: c2 :: c3 :: c4 :: c5 :: cs =>
    rw [matchFormB] at h
    split_ifs at h with h4 h5
    obtain ⟨rfl, rfl, rfl, rfl⟩ := h4
    obtain ⟨gap, hg, hr, hmem, hne⟩ := matchGapSrc_sound h
    refine ⟨c5 :: gap, by simp, ?_, by simp [hr], hmem, hne⟩
    intro hm
    rcases List.mem_cons.mp hm with h3 | h3
    · exact h5 h3.symm
    · exact hg h3

theorem matchFormB_length {l url rest : List Char}
    (h : matchFormB l = some (url, rest)) : rest.length < l.length := by
  obtain ⟨gap, _, _, hr, _, _⟩ := matchFormB_sound h
  have := congrArg List.length hr
  simp at this
  omega

/-- Fuel-indexed Form A scan: try a match at each position; on success continue
after the match, otherwise advance one character. One unit of fuel per
position examined; each successful match consumes at least one character, so
the input's length is always enough fuel. -/
def scanFormAFuel : Nat → List Char → List (List Char × List Char)
  | 0, _ => []
  | _ + 1, [] => []
  | n + 1, c :: cs =>
    match matchFormA (c :: cs) with
    | some (alt, url, rest) => (alt, url) :: scanFormAFuel n rest
    | none => scanFormAFuel n cs

/-- All Form A matches in left-to-right scan order, each match continuing
after the end of the previous one (Go `FindAllStringSubmatch` with the
markdown image regex), as (alt text, URL) pairs. -/
def scanFormA (l : List Char) : List (List Char × List Char) :=
  scanFormAFuel l.length l

/-- Fuel-indexed Form B scan, in the same style as `scanFormAFuel`. -/
def scanFormBFuel : Nat → List Char → List (List Char)
  | 0, _ => []
  | _ + 1, [] => []
  | n + 1, c :: cs =>
    match matchFormB (c :: cs) with
    | some (url, rest) => url :: scanFormBFuel n rest
    | none => scanFormBFuel n cs

/-- All Form B matches in left-to-right scan order (Go `FindAllStringSubmatch`
with the HTML img regex), as the captured `src` URLs. -/
def scanFormB (l : List Char) : List (List Char) :=
  scanFormBFuel l.length l

theorem scanFormAFuel_congr : ∀ (n : Nat), ∀ {m : Nat} {l : List Char},
    l.length ≤ n → l.length ≤ m → scanFormAFuel n l = scanFormAFuel m l := by
  intro n
  induction n with
  | zero =>
    intro m l hn hm
    have : l = [] := List.eq_nil_of_length_eq_zero (Nat.le_zero.mp hn)
    subst this
    cases m <;> rfl
  | succ n ih =>
    intro m l hn hm
    cases l with
    | nil => cases m <;> rfl
    | cons c cs =>
      simp only [List.length_cons] at hn hm
      cases m with
      | zero => omega
      | succ m' =>
        rw [scanFormAFuel, scanFormAFuel]
        cases heq : matchFormA (c :: cs) with
        | some t =>
          obtain ⟨alt, url, rest⟩ := t
          have hr := matchFormA_length heq
          simp only [List.length_cons] at hr
          exact congrArg _ (ih (by omega) (by omega))
        | none =>
          exact ih (by omega) (by omega)

theorem scanFormBFuel_congr : ∀ (n : Nat), ∀ {m : Nat} {l : List Char},
    l.length ≤ n → l.length ≤ m → scanFormBFuel n l = scanFormBFuel m l := by
  intro n
  induction n with
  | zero =>
    intro m l hn hm
    have : l = [] := List.eq_nil_of_length_eq_zero (Nat.le_zero.mp hn)
    subst this
    cases m <;> rfl
  | succ n ih =>
    intro m l hn hm
    cases l with
    | nil => cases m <;> rfl
    | cons c cs =>
      simp only [List.length_cons] at hn hm
      cases m with
      | zero => omega
      | succ m' =>
        rw [scanFormBFuel, scanFormBFuel]
        cases heq : matchFormB (c :: cs) with
        | some t =>
          obtain ⟨url, rest⟩ := t
          have hr := matchFormB_length heq
          simp only [List.length_cons] at hr
          exact congrArg _ (ih (by omega) (by omega))
        | none =>
          exact ih (by omega) (by omega)

theorem scanFormA_nil : scanFormA [] = [] := rfl

theorem scanFormA_cons_some {c : Char} {cs alt url rest : List Char}
    (h : matchFormA (c :: cs) = some (alt, url, rest)) :
    scanFormA (c :: cs) = (alt, url) :: scanFormA rest := by
  have hr := matchFormA_length h
  simp only [List.length_cons] at hr
  unfold scanFormA
  rw [List.length_cons, scanFormAFuel, h]
  exact congrArg _ (scanFormAFuel_congr cs.length (by omega) le_rfl)

theorem scanFormA_cons_none {c : Char} {cs : List Char}
    (h : matchFormA (c :: cs) = none) :
    scanFormA (c :: cs) = scanFormA cs := by
  unfold scanFormA
  rw [List.length_cons, scanFormAFuel, h]

theorem scanFormB_nil : scanFormB [] = [] := rfl

theorem scanFormB_cons_some {c : Char} {cs url rest : List Char}
    (h : matchFormB (c :: cs) = some (url, rest)) :
    scanFormB (c :: cs) = url :: scanFormB rest := by
  have hr := matchFormB_length h
  simp only [List.length_cons] at hr
  unfold scanFormB
  rw [List.length_cons, scanFormBFuel, h]
  exact congrArg _ (scanFormBFuel_congr cs.length (by omega) le_rfl)

theorem scanFormB_cons_none {c : Char} {cs : List Char}
    (h : matchFormB (c :: cs) = none) :
    scanFormB (c :: cs) = scanFormB cs := by
  unfold scanFormB
  rw [List.length_cons, scanFormBFuel, h]

/-! ## Substring containment and image extraction -/

/-- Does the input start with `pat`? -/
def leadMatch : List Char → List Char → Bool
  | [], _ => true
  | _ :: _, [] => false
  | p :: ps, x :: xs => p == x && leadMatch ps xs

/-- Character-list version of Go `strings.Contains l pat`: does `pat` occur in
`l` as a contiguous substring? -/
def containsSubstr (l pat : List Char) : Bool :=
  match l with
  | [] => leadMatch pat []
  | x :: xs => leadMatch pat (x :: xs) || containsSubstr xs pat

/-- Mathematical statement of contiguous-substring occurrence. -/
def occursIn (pat l : List Char) : Prop :=
  ∃ pre post, l = pre ++ pat ++ post

theorem leadMatch_iff : ∀ (pat l : List Char),
    leadMatch pat l = true ↔ ∃ t, l = pat ++ t := by
  intro pat
  induction pat with
  | nil =>
    intro l
    simp [leadMatch]
  | cons p ps ih =>
    intro l
    cases l with
    | nil =>
      simp [leadMatch]
    | cons x xs =>
      rw [leadMatch]
      simp only [Bool.and_eq_true, beq_iff_eq, ih xs, List.cons_append,
        List.cons.injEq]
      constructor
      · rintro ⟨rfl, t, rfl⟩
        exact ⟨t, rfl, rfl⟩
      · rintro ⟨t, rfl, rfl⟩
        exact ⟨rfl, t, rfl⟩

theorem containsSubstr_iff : ∀ (l pat : List Char),
    containsSubstr l pat = true ↔ occursIn pat l := by
  intro l
  induction l with
  | nil =>
    intro pat
    rw [containsSubstr, leadMatch_iff]
    unfold occursIn
    constructor
    · rintro ⟨t, ht⟩
      exact ⟨[], t, by simpa using ht⟩
    · rintro ⟨pre, post, h⟩
      have h' : pre = [] ∧ pat = [] ∧ post = [] := by
        simpa [List.append_assoc] using h.symm
      exact ⟨[], by simp [h'.2.1]⟩
  | cons x xs ih =>
    intro pat
    rw [containsSubstr]
    simp only [Bool.or_eq_true, leadMatch_iff, ih pat]
    unfold occursIn
    constructor
    · rintro (⟨t, ht⟩ | ⟨pre, post, h⟩)
      · exact ⟨[], t, by simpa using ht⟩
      · exact ⟨x :: pre, post, by simp [h]⟩
    · rintro ⟨pre, post, h⟩
      cases pre with
      | nil => exact Or.inl ⟨post, by simpa using h⟩
      | cons y ys =>
        simp only [List.cons_append, List.cons.injEq] at h
        exact Or.inr ⟨ys, post, h.2⟩

/-- One image found in markdown (Go struct `ImageInfo` in pkg/files/files.go):
its URL, its alt text, and whether the URL contains "linear.app". -/
structure ImageInfo where
  URL : List Char
  AltText : List Char
  IsLinearURL : Bool
  deriving DecidableEq

/-- The known-host domain substring of the asset-hosting service. -/
def linearDomain : List Char := "linear.app".data

/-- Embedding of Go `ExtractImagesFromMarkdown` (pkg/files/files.go): collect
all Form A matches, then all Form B matches (whose alt text is always empty),
each tagged with whether its URL contains "linear.app". -/
def ExtractImagesFromMarkdown (markdown : List Char) : List ImageInfo :=
  (scanFormA markdown).map
      (fun m => ⟨m.2, m.1, containsSubstr m.2 linearDomain⟩)
    ++ (scanFormB markdown).map
      (fun url => ⟨url, [], containsSubstr url linearDomain⟩)

/-! ## The scanners report genuine matches, in document order -/

/-- The Form A scan's result occurs in the input, in order: the input
decomposes as gap, rendered match, continuation, recursively. -/
inductive EmbedsA : List Char → List (List Char × List Char) → Prop
  | nil (rest : List Char) : EmbedsA rest []
  | cons (gap : List Char) (m : List Char × List Char) (rest : List Char)
      (ms : List (List Char × List Char)) :
      EmbedsA rest ms → EmbedsA (gap ++ renderImage m.1 m.2 ++ rest) (m :: ms)

/-- The Form B scan's result occurs in the input, in order: each reported URL
sits inside an `<img ... src="..."` occurrence, recursively. -/
inductive EmbedsB : List Char → List (List Char) → Prop
  | nil (rest : List Char) : EmbedsB rest []
  | cons (pre gap url rest : List Char) (us : List (List Char)) :
      gap ≠ [] → '>' ∉ gap → '"' ∉ url → url ≠ [] →
      EmbedsB rest us →
      EmbedsB (pre ++ '<' :: 'i' :: 'm' :: 'g' ::
        (gap ++ 's' :: 'r' :: 'c' :: '=' :: '"' :: (url ++ '"' :: rest)))
        (url :: us)

theorem EmbedsA_cons_char (c : Char) {l : List Char}
    {ms : List (List Char × List Char)} (h : EmbedsA l ms) :
    EmbedsA (c :: l) ms := by
  cases h with
  | nil => exact EmbedsA.nil (c :: l)
  | cons gap m rest ms h2 =>
    have := EmbedsA.cons (c :: gap) m rest ms h2
    simpa using this

theorem EmbedsB_cons_char (c : Char) {l : List Char} {us : List (List Char)}
    (h : EmbedsB l us) : EmbedsB (c :: l) us := by
  cases h with
  | nil => exact EmbedsB.nil (c :: l)
  | cons pre gap url rest us h1 h2 h3 h4 h5 =>
    have := EmbedsB.cons (c :: pre) gap url rest us h1 h2 h3 h4 h5
    simpa using this

theorem scanFormA_embeds_fuel : ∀ (n : Nat) (l : List Char), l.length ≤ n →
    EmbedsA l (scanFormA l) := by
  intro n
  induction n with
  | zero =>
    intro l h
    have : l = [] := List.eq_nil_of_length_eq_zero (Nat.le_zero.mp h)
    subst this
    exact EmbedsA.nil []
  | succ n ih =>
    intro l hl
    cases l with
    | nil => exact EmbedsA.nil []
    | cons c cs =>
      simp only [List.length_cons] at hl
      cases heq : matchFormA (c :: cs) with
      | some t =>
        obtain ⟨alt, url, rest⟩ := t
        rw [scanFormA_cons_some heq]
        obtain ⟨hdecomp, -, -, -⟩ := matchFormA_sound heq
        have hrl := matchFormA_length heq
        simp only [List.length_cons] at hrl
        have := EmbedsA.cons [] (alt, url) rest (scanFormA rest)
          (ih rest (by omega))
        rw [hdecomp]
        simpa using this
      | none =>
        rw [scanFormA_cons_none heq]
        exact EmbedsA_cons_char c (ih cs (by omega))

theorem scanFormA_embeds (l : List Char) : EmbedsA l (scanFormA l) :=
  scanFormA_embeds_fuel l.length l le_rfl

theorem scanFormB_embeds_fuel : ∀ (n : Nat) (l : List Char), l.length ≤ n →
    EmbedsB l (scanFormB l) := by
  intro n
  induction n with
  | zero =>
    intro l h
    have : l = [] := List.eq_nil_of_length_eq_zero (Nat.le_zero.mp h)
    subst this
    exact EmbedsB.nil []
  | succ n ih =>
    intro l hl
    cases l with
    | nil => exact EmbedsB.nil []
    | cons c cs =>
      simp only [List.length_cons] at hl
      cases heq : matchFormB (c :: cs) with
      | some t =>
        obtain ⟨url, rest⟩ := t
        rw [scanFormB_cons_some heq]
        obtain ⟨gap, hg1, hg2, hdecomp, hq, hne⟩ := matchFormB_sound heq
        have hrl := matchFormB_length heq
        simp only [List.length_cons] at hrl
        have := EmbedsB.cons [] gap url rest (scanFormB rest) hg1 hg2 hq hne
          (ih rest (by omega))
        rw [hdecomp]
        simpa using this
      | none =>
        rw [scanFormB_cons_none heq]
        exact EmbedsB_cons_char c (ih cs (by omega))

theorem scanFormB_embeds (l : List Char) : EmbedsB l (scanFormB l) :=
  scanFormB_embeds_fuel l.length l le_rfl

theorem scanFormA_shape_fuel : ∀ (n : Nat) (l : List Char), l.length ≤ n →
    ∀ m ∈ scanFormA l, ']' ∉ m.1 ∧ ')' ∉ m.2 ∧ m.2 ≠ [] := by
  intro n
  induction n with
  | zero =>
    intro l h m hm
    have : l = [] := List.eq_nil_of_length_eq_zero (Nat.le_zero.mp h)
    subst this
    simp [scanFormA_nil] at hm
  | succ n ih =>
    intro l hl m hm
    cases l with
    | nil => simp [scanFormA_nil] at hm
    | cons c cs =>
      simp only [List.length_cons] at hl
      cases heq : matchFormA (c :: cs) with
      | some t =>
        obtain ⟨alt, url, rest⟩ := t
        rw [scanFormA_cons_some heq] at hm
        have hrl := matchFormA_length heq
        simp only [List.length_cons] at hrl
        rcases List.mem_cons.mp hm with rfl | hm2
        · obtain ⟨-, h1, h2, h3⟩ := matchFormA_sound heq
          exact ⟨h1, h2, h3⟩
        · exact ih rest (by omega) m hm2
      | none =>
        rw [scanFormA_cons_none heq] at hm
        exact ih cs (by omega) m hm

theorem scanFormA_shape (l : List Char) :
    ∀ m ∈ scanFormA l, ']' ∉ m.1 ∧ ')' ∉ m.2 ∧ m.2 ≠ [] :=
  scanFormA_shape_fuel l.length l le_rfl

/-! ## Claims C4, C7, C9 -/

/-- Claim C4: extraction returns all Form A matches (alt = bracket text, URL =
non-empty close-paren-free paren text) in left-to-right scan order, followed
by all Form B matches (alt always empty) in left-to-right scan order, never
interleaved across forms; both scans report genuine in-order occurrences in
the document; and a document with zero matches yields the empty list rather
than an error. -/
theorem claim_C4_extract_order (md : List Char) :
    ExtractImagesFromMarkdown md
      = (scanFormA md).map (fun m => ⟨m.2, m.1, containsSubstr m.2 linearDomain⟩)
        ++ (scanFormB md).map (fun url => ⟨url, [], containsSubstr url linearDomain⟩)
    ∧ EmbedsA md (scanFormA md)
    ∧ EmbedsB md (scanFormB md)
    ∧ (∀ m ∈ scanFormA md, ']' ∉ m.1 ∧ ')' ∉ m.2 ∧ m.2 ≠ [])
    ∧ (∀ info ∈ ExtractImagesFromMarkdown md,
        info ∈ (scanFormB md).map
          (fun url => (⟨url, [], containsSubstr url linearDomain⟩ : ImageInfo)) →
        info.AltText = [])
    ∧ (scanFormA md = [] → scanFormB md = [] → ExtractImagesFromMarkdown md = []) := by
  refine ⟨rfl, scanFormA_embeds md, scanFormB_embeds md, scanFormA_shape md, ?_, ?_⟩
  · intro info _ hinfo
    obtain ⟨u, hu, rfl⟩ := List.mem_map.mp hinfo
    rfl
  · intro hA hB
    rw [ExtractImagesFromMarkdown, hA, hB]
    rfl

theorem claim_C4_extract_order_witness :
    ExtractImagesFromMarkdown "![a](http://x/1.png)![b](http://x/2.png)".data
      = (scanFormA "![a](http://x/1.png)![b](http://x/2.png)".data).map
          (fun m => ⟨m.2, m.1, containsSubstr m.2 linearDomain⟩)
        ++ (scanFormB "![a](http://x/1.png)![b](http://x/2.png)".data).map
          (fun url => ⟨url, [], containsSubstr url linearDomain⟩)
    ∧ (']' ∉ "a".data ∧ ')' ∉ "http://x/1.png".data ∧ "http://x/1.png".data ≠ ([] : List Char)) :=
  ⟨(claim_C4_extract_order _).1,
   (claim_C4_extract_order "![a](http://x/1.png)![b](http://x/2.png)".data).2.2.2.1
     ("a".data, "http://x/1.png".data) (by decide)⟩

/-- Claim C7: for every reference produced by extraction, `IsLinearURL` is
true exactly when the URL contains "linear.app" anywhere as a plain
contiguous substring. -/
theorem claim_C7_known_host (md : List Char) (info : ImageInfo)
    (h : info ∈ ExtractImagesFromMarkdown md) :
    info.IsLinearURL = true ↔ occursIn linearDomain info.URL := by
  have hc : info.IsLinearURL = containsSubstr info.URL linearDomain := by
    rw [ExtractImagesFromMarkdown] at h
    rcases List.mem_append.mp h with h1 | h1
    · obtain ⟨m, hm, rfl⟩ := List.mem_map.mp h1
      rfl
    · obtain ⟨u, hu, rfl⟩ := List.mem_map.mp h1
      rfl
  rw [hc, containsSubstr_iff]

theorem claim_C7_known_host_witness :
    ((⟨"https://linear.app/f.png".data, "a".data, true⟩ : ImageInfo).IsLinearURL = true
      ↔ occursIn linearDomain "https://linear.app/f.png".data)
    ∧ ((⟨"https://other.example/f.png".data, "b".data, false⟩ : ImageInfo).IsLinearURL = true
      ↔ occursIn linearDomain "https://other.example/f.png".data) :=
  ⟨claim_C7_known_host "![a](https://linear.app/f.png)".data _ (by decide),
   claim_C7_known_host "![b](https://other.example/f.png)".data _ (by decide)⟩

theorem matchFormB_none_of_head_ne {c : Char} {cs : List Char} (h : c ≠ '<') :
    matchFormB (c :: cs) = none := by
  match cs with
  | [] => rfl
  | [c2] => rfl
  | [c2, c3] => rfl
  | [c2, c3, c4] => rfl
  | c2 :: c3 :: c4 :: c5 :: r =>
    rw [matchFormB, if_neg]
    exact fun hc => h hc.1

theorem scanFormB_empty_of_no_lt : ∀ (l : List Char), '<' ∉ l →
    scanFormB l = [] := by
  intro l
  induction l with
  | nil => intro _; rfl
  | cons c cs ih =>
    intro h
    have hc : c ≠ '<' := fun he => h (he ▸ List.mem_cons_self c cs)
    rw [scanFormB_cons_none (matchFormB_none_of_head_ne hc)]
    exact ih fun hm => h (List.mem_cons_of_mem c hm)

theorem matchFormA_render (alt url rest : List Char) (h1 : ']' ∉ alt)
    (h2 : ')' ∉ url) (h3 : url ≠ []) :
    matchFormA (renderImage alt url ++ rest) = some (alt, url, rest) := by
  have e : renderImage alt url ++ rest
      = '!' :: '[' :: (alt ++ ']' :: '(' :: (url ++ ')' :: rest)) := by
    simp [renderImage]
  rw [e, matchFormA, if_pos ⟨rfl, rfl⟩, splitAtChar_append alt _ h1]
  simp only [Option.some_bind, if_true]
  rw [splitAtChar_append url rest h2]
  simp only [Option.some_bind]
  rw [if_neg h3]

theorem scanFormA_render (alt url : List Char) (h1 : ']' ∉ alt)
    (h2 : ')' ∉ url) (h3 : url ≠ []) :
    scanFormA (renderImage alt url) = [(alt, url)] := by
  have hm : matchFormA ('!' :: '[' :: (alt ++ ']' :: '(' :: (url ++ [')'])))
      = some (alt, url, []) := by
    have := matchFormA_render alt url [] h1 h2 h3
    rw [List.append_nil] at this
    exact this
  rw [renderImage, scanFormA_cons_some hm, scanFormA_nil]

theorem no_lt_render {alt url : List Char} (ha : '<' ∉ alt) (hu : '<' ∉ url) :
    '<' ∉ renderImage alt url := by
  intro hm
  rw [renderImage] at hm
  simp only [List.mem_cons, List.mem_append, List.mem_singleton] at hm
  rcases hm with h | h | h | h | h | h | h
  · exact absurd h (by decide)
  · exact absurd h (by decide)
  · exact ha h
  · exact absurd h (by decide)
  · exact absurd h (by decide)
  · exact hu h
  · exact absurd h (by decide)

/-- Claim C9: round trip of the document operations — injecting an image into
an empty document and then extracting yields exactly one reference, whose URL
is the asset URL and whose alt text is the given alt text, or "image" when
the given alt text is empty. -/
theorem claim_C9_round_trip (assetURL altText : List Char)
    (hu1 : assetURL ≠ []) (hu2 : ')' ∉ assetURL) (hu3 : '<' ∉ assetURL)
    (ha1 : ']' ∉ altText) (ha2 : '<' ∉ altText) :
    (ExtractImagesFromMarkdown (InjectImageIntoMarkdown [] assetURL altText)).map
        (fun info => (info.URL, info.AltText))
      = [(assetURL, if altText = [] then "image".data else altText)] := by
  have halt1 : ']' ∉ (if altText = [] then "image".data else altText) := by
    split
    · decide
    · exact ha1
  have halt2 : '<' ∉ (if altText = [] then "image".data else altText) := by
    split
    · decide
    · exact ha2
  have hinj : InjectImageIntoMarkdown [] assetURL altText
      = renderImage (if altText = [] then "image".data else altText) assetURL := by
    rw [InjectImageIntoMarkdown]
    simp [trimSpace]
  rw [hinj, ExtractImagesFromMarkdown,
    scanFormA_render _ assetURL halt1 hu2 hu1,
    scanFormB_empty_of_no_lt _ (no_lt_render halt2 hu3)]
  rfl

theorem claim_C9_round_trip_witness :
    (ExtractImagesFromMarkdown
        (InjectImageIntoMarkdown [] "http://x/a.png".data "cat".data)).map
        (fun info => (info.URL, info.AltText))
      = [("http://x/a.png".data,
          if "cat".data = ([] : List Char) then "image".data else "cat".data)] :=
  claim_C9_round_trip "http://x/a.png".data "cat".data
    (by decide) (by decide) (by decide) (by decide) (by decide)

/-! ## HTTP header model

Go `http.Header.Set` canonicalizes the key with
`textproto.CanonicalMIMEHeaderKey` and then binds it in a map; the map is
modelled as an association list (keys pairwise distinct in a Go map), and a
Go map's range loop as a left fold over that list. -/

/-- Go textproto `validHeaderFieldByte`: digits, letters, and the header
token punctuation (codes 33 35 36 37 38 39 42 43 45 46 94 95 96 124 126). -/
def validHeaderFieldChar (c : Char) : Bool :=
  (48 ≤ c.toNat && c.toNat ≤ 57) || (65 ≤ c.toNat && c.toNat ≤ 90) ||
    (97 ≤ c.toNat && c.toNat ≤ 122) ||
    [33, 35, 36, 37, 38, 39, 42, 43, 45, 46, 94, 95, 96, 124, 126].contains c.toNat

/-- Uppercase an ASCII lowercase letter, leave anything else unchanged. -/
def asciiUpperChar (c : Char) : Char :=
  if 'a' ≤ c && c ≤ 'z' then Char.ofNat (c.toNat - 32) else c

/-- Lowercase an ASCII uppercase letter, leave anything else unchanged. -/
def asciiLowerChar (c : Char) : Char :=
  if 'A' ≤ c && c ≤ 'Z' then Char.ofNat (c.toNat + 32) else c

/-- The casing loop of `CanonicalMIMEHeaderKey`: uppercase at the start and
after each hyphen, lowercase elsewhere. -/
def canonAux : Bool → List Char → List Char
  | _, [] => []
  | up, c :: cs =>
    (if up then asciiUpperChar c else asciiLowerChar c) :: canonAux (c == '-') cs

/-- Go `textproto.CanonicalMIMEHeaderKey`: when every character is a valid
header token character, apply the canonical casing; otherwise return the key
unchanged. -/
def canonMIME (k : List Char) : List Char :=
  if k.all validHeaderFieldChar then canonAux true k else k

/-- Bind a key in an association list, replacing an existing binding in place
or appending a new one (the model of a map update). -/
def setAssoc (h : List (List Char × List Char)) (k v : List Char) :
    List (List Char × List Char) :=
  match h with
  | [] => [(k, v)]
  | (k2, v2) :: t => if k2 = k then (k, v) :: t else (k2, v2) :: setAssoc t k v

/-- The binding of a key in an association list. -/
def lookupAssoc (h : List (List Char × List Char)) (k : List Char) :
    Option (List Char) :=
  match h with
  | [] => none
  | (k2, v2) :: t => if k2 = k then some v2 else lookupAssoc t k

/-- Go `http.Header.Set`: canonicalize the key, then bind it. -/
def headerSet (h : List (List Char × List Char)) (k v : List Char) :
    List (List Char × List Char) :=
  setAssoc h (canonMIME k) v

/-- Apply a sequence of header entries with `headerSet` (a Go map range loop
followed by `Set`, the map frozen as a list). -/
def applyHeaders (h : List (List Char × List Char))
    (l : List (List Char × List Char)) : List (List Char × List Char) :=
  l.foldl (fun h2 kv => headerSet h2 kv.1 kv.2) h

theorem lookupAssoc_setAssoc_self : ∀ (h : List (List Char × List Char))
    (k v : List Char), lookupAssoc (setAssoc h k v) k = some v := by
  intro h k v
  induction h with
  | nil => simp [setAssoc, lookupAssoc]
  | cons kv t ih =>
    obtain ⟨k2, v2⟩ := kv
    by_cases hk : k2 = k
    · simp [setAssoc, hk, lookupAssoc]
    · simp [setAssoc, hk, lookupAssoc, ih]

theorem applyHeaders_cons (h : List (List Char × List Char))
    (kv : List Char × List Char) (t : List (List Char × List Char)) :
    applyHeaders h (kv :: t) = applyHeaders (headerSet h kv.1 kv.2) t := rfl

theorem lookupAssoc_setAssoc_ne {k k2 : List Char} (hne : k ≠ k2) :
    ∀ (h : List (List Char × List Char)) (v : List Char),
    lookupAssoc (setAssoc h k2 v) k = lookupAssoc h k := by
  have hne2 : ¬ k2 = k := fun he => hne he.symm
  intro h v
  induction h with
  | nil =>
    show lookupAssoc [(k2, v)] k = none
    rw [lookupAssoc, if_neg hne2]
    rfl
  | cons kv t ih =>
    obtain ⟨k3, v3⟩ := kv
    rw [setAssoc]
    split_ifs with hk
    · subst hk
      simp only [lookupAssoc, if_neg hne2]
    · simp only [lookupAssoc]
      by_cases hk3 : k3 = k
      · rw [if_pos hk3, if_pos hk3]
      · rw [if_neg hk3, if_neg hk3, ih]

theorem lookup_applyHeaders_not_mem : ∀ (l h : List (List Char × List Char))
    (k : List Char), (∀ kv ∈ l, canonMIME kv.1 ≠ k) →
    lookupAssoc (applyHeaders h l) k = lookupAssoc h k := by
  intro l
  induction l with
  | nil => intro h k _; rfl
  | cons kv t ih =>
    intro h k hk
    rw [applyHeaders_cons]
    rw [ih _ k fun kv2 h2 => hk kv2 (List.mem_cons_of_mem _ h2)]
    exact lookupAssoc_setAssoc_ne
      (fun he => hk kv (List.mem_cons_self kv t) he.symm) h kv.2

theorem lookup_applyHeaders_mem : ∀ (l h : List (List Char × List Char))
    (k v : List Char), (k, v) ∈ l →
    (l.map fun kv => canonMIME kv.1).Nodup →
    lookupAssoc (applyHeaders h l) (canonMIME k) = some v := by
  intro l
  induction l with
  | nil => intro h k v hm; simp at hm
  | cons kv t ih =>
    intro h k v hm hnd
    obtain ⟨k0, v0⟩ := kv
    rw [List.map_cons, List.nodup_cons] at hnd
    rw [applyHeaders_cons]
    rcases List.mem_cons.mp hm with heq | hmt
    · obtain ⟨rfl, rfl⟩ := Prod.ext_iff.mp heq
      have hnot : ∀ kv2 ∈ t, canonMIME kv2.1 ≠ canonMIME k := by
        intro kv2 h2 he
        exact hnd.1 (he ▸ List.mem_map.mpr ⟨kv2, h2, rfl⟩)
      rw [lookup_applyHeaders_not_mem t _ _ hnot]
      exact lookupAssoc_setAssoc_self _ _ _
    · exact ih _ k v hmt hnd.2

/-! ## Transfer operations -/

/-- An HTTP request as constructed by the transfer code. -/
structure HTTPRequest where
  method : List Char
  url : List Char
  headers : List (List Char × List Char)
  body : List Char
  deriving DecidableEq

/-- Go struct `UploadFileInfo` (pkg/files/files.go); the header map frozen as
an association list. -/
structure UploadFileInfo where
  UploadURL : List Char
  AssetURL : List Char
  Headers : List (List Char × List Char)
  ContentType : List Char
  Size : Int
  deriving DecidableEq

/-- The Cache-Control value set by the upload: publicly cacheable for one
year (31536000 seconds). -/
def cacheControlValue : List Char := "public, max-age=31536000".data

/-- Headers of the upload PUT (Go `UploadToPresignedURL`, lines 124-130):
Content-Type from the target and the Cache-Control default, then every entry
of the target's header map overlaid. -/
def buildUploadHeaders (contentType : List Char)
    (custom : List (List Char × List Char)) : List (List Char × List Char) :=
  applyHeaders
    (headerSet (headerSet [] "Content-Type".data contentType)
      "Cache-Control".data cacheControlValue)
    custom

/-- The PUT request issued by `UploadToPresignedURL`. -/
def buildUploadRequest (info : UploadFileInfo) (content : List Char) :
    HTTPRequest :=
  { method := "PUT".data
    url := info.UploadURL
    headers := buildUploadHeaders info.ContentType info.Headers
    body := content }

/-- Upload failure: the response status was outside {200, 204}; carries the
status and the response body text. -/
inductive UploadError
  | statusErr (status : Nat) (body : List Char)
  deriving DecidableEq

/-- Embedding of Go `UploadToPresignedURL` (pkg/files/files.go) from the
point the request is built, the network an oracle from the issued request to
a response (status, body). -/
def UploadToPresignedURL (net : HTTPRequest → Nat × List Char)
    (info : UploadFileInfo) (fileContent : List Char) :
    Except UploadError Unit :=
  let resp := net (buildUploadRequest info fileContent)
  if resp.1 ≠ 200 ∧ resp.1 ≠ 204 then .error (.statusErr resp.1 resp.2)
  else .ok ()

/-- Download failure: the response status was not 200. -/
inductive DownloadError
  | statusErr (status : Nat)
  deriving DecidableEq

/-- Filesystem state: directories created and files present. -/
structure FS where
  dirs : List (List Char)
  files : List (List Char × List Char)
  deriving DecidableEq

/-- Parent directory of a path: everything before the final slash, or "."
when there is none (the part of Go `filepath.Dir` relevant here; `Clean`
normalization of the result is omitted — no claim depends on it). -/
def parentDir (p : List Char) : List Char :=
  match splitAtChar '/' p.reverse with
  | some (_, tailRev) => tailRev.reverse
  | none => ['.']

/-- The GET request built by `DownloadImage`: the Authorization header is
attached verbatim exactly when `authHeader` is non-empty. -/
def downloadRequest (url authHeader : List Char) : HTTPRequest :=
  { method := "GET".data
    url := url
    headers :=
      if authHeader ≠ [] then headerSet [] "Authorization".data authHeader
      else []
    body := [] }

/-- Embedding of Go `DownloadImage` (pkg/files/files.go) from the point the
request is built: a non-200 status fails before any filesystem operation; on
200 the output path's parent directory is created and the body written to the
output path (file creation and the body copy merged into one write; I/O
failure injection is not modelled). Returns the result and the filesystem
after the call. -/
def DownloadImage (net : HTTPRequest → Nat × List Char)
    (url outputPath authHeader : List Char) (fs : FS) :
    Except DownloadError Unit × FS :=
  let resp := net (downloadRequest url authHeader)
  if resp.1 ≠ 200 then (.error (.statusErr resp.1), fs)
  else
    let fs1 : FS := { fs with dirs := parentDir outputPath :: fs.dirs }
    let fs2 : FS := { fs1 with files := setAssoc fs1.files outputPath resp.2 }
    (.ok (), fs2)

/-! ## File metadata -/

/-- Helper for `extOf`: walk the reversed path, accumulating until the first
dot (returning from it) or separator or end (returning empty). -/
def extOfRev (acc : List Char) : List Char → List Char
  | [] => []
  | c :: cs =>
    if c = '/' then []
    else if c = '.' then '.' :: acc
    else extOfRev (c :: acc) cs

/-- Go `filepath.Ext`: the suffix starting at the final dot in the final
slash-separated element of the path; empty when that element has no dot. -/
def extOf (p : List Char) : List Char := extOfRev [] p.reverse

/-- Go `strings.ToLower`, restricted to the mappings that can produce an
ASCII character: ASCII uppercase letters, plus the two code points whose
Unicode simple lowercase mapping is ASCII (U+212A Kelvin sign to k, U+0130
dotted capital I to i). Any other character is unchanged; a non-ASCII
character whose lowercase is non-ASCII can never equal an entry of the
ASCII-only extension table, so the restriction cannot change the computed
content type. -/
def goToLowerChar (c : Char) : Char :=
  if 'A' ≤ c && c ≤ 'Z' then Char.ofNat (c.toNat + 32)
  else if c.toNat = 0x212A then 'k'
  else if c.toNat = 0x130 then 'i'
  else c

/-- Go `strings.ToLower` on a whole string (see `goToLowerChar`). -/
def goToLower (l : List Char) : List Char := l.map goToLowerChar

/-- The extension switch of Go `GetFileInfo` (pkg/files/files.go). -/
def contentTypeFromExt (ext : List Char) : List Char :=
  if ext = ".jpg".data ∨ ext = ".jpeg".data then "image/jpeg".data
  else if ext = ".png".data then "image/png".data
  else if ext = ".gif".data then "image/gif".data
  else if ext = ".webp".data then "image/webp".data
  else if ext = ".svg".data then "image/svg+xml".data
  else if ext = ".bmp".data then "image/bmp".data
  else if ext = ".mp4".data then "video/mp4".data
  else if ext = ".webm".data then "video/webm".data
  else if ext = ".mov".data then "video/quicktime".data
  else if ext = ".pdf".data then "application/pdf".data
  else "application/octet-stream".data

/-- Stat failure (Go `os.Stat` returning an error). -/
inductive StatError
  | statFailed
  deriving DecidableEq

/-- Embedding of Go `GetFileInfo` (pkg/files/files.go), with `os.Stat`
modelled as an oracle from path to optional size. -/
def GetFileInfo (stat : List Char → Option Int) (filePath : List Char) :
    Except StatError (Int × List Char) :=
  match stat filePath with
  | none => .error .statFailed
  | some size => .ok (size, contentTypeFromExt (goToLower (extOf filePath)))

/-! ## Claims C1, C2, C3, C8, C10 -/

/-- Claim C1: whenever an HTTP response with status other than 200 is
received, download fails with a status error carrying that status, and the
filesystem is untouched: no directory is created and no file is written or
modified (the status check precedes every filesystem operation). -/
theorem claim_C1_download_status (net : HTTPRequest → Nat × List Char)
    (url outputPath authHeader : List Char) (fs : FS)
    (h : (net (downloadRequest url authHeader)).1 ≠ 200) :
    DownloadImage net url outputPath authHeader fs
      = (.error (.statusErr (net (downloadRequest url authHeader)).1), fs) := by
  unfold DownloadImage
  rw [if_pos h]

theorem claim_C1_download_status_witness :
    DownloadImage (fun _ => (404, [])) "http://x/y.png".data "/tmp/a.png".data
        [] ⟨["/tmp".data], [("/tmp/a.png".data, "old".data)]⟩
      = (.error (.statusErr 404),
          (⟨["/tmp".data], [("/tmp/a.png".data, "old".data)]⟩ : FS)) :=
  claim_C1_download_status (fun _ => (404, [])) "http://x/y.png".data
    "/tmp/a.png".data [] ⟨["/tmp".data], [("/tmp/a.png".data, "old".data)]⟩
    (by decide)

/-- Claim C2: for every received response, upload succeeds iff the status is
200 or 204; on any other status it fails with a status error carrying the
status and the response body text. -/
theorem claim_C2_upload_status (net : HTTPRequest → Nat × List Char)
    (info : UploadFileInfo) (content : List Char) :
    (UploadToPresignedURL net info content = .ok ()
      ↔ ((net (buildUploadRequest info content)).1 = 200
          ∨ (net (buildUploadRequest info content)).1 = 204))
    ∧ (UploadToPresignedURL net info content = .ok ()
        ∨ UploadToPresignedURL net info content
          = .error (.statusErr (net (buildUploadRequest info content)).1
              (net (buildUploadRequest info content)).2)) := by
  unfold UploadToPresignedURL
  by_cases h : (net (buildUploadRequest info content)).1 ≠ 200
      ∧ (net (buildUploadRequest info content)).1 ≠ 204
  · rw [if_pos h]
    refine ⟨⟨fun he => absurd he (by simp), fun hor => ?_⟩, Or.inr rfl⟩
    rcases hor with h1 | h1
    · exact absurd h1 h.1
    · exact absurd h1 h.2
  · rw [if_neg h]
    refine ⟨⟨fun _ => ?_, fun _ => rfl⟩, Or.inl rfl⟩
    by_cases h1 : (net (buildUploadRequest info content)).1 = 200
    · exact Or.inl h1
    · exact Or.inr (by tauto)

/-- Claim C3: the upload PUT carries Content-Type equal to the target's
content type and Cache-Control "public, max-age=31536000" as defaults, and
every entry of the target's header map is applied after them: for any key
present there (including Content-Type or Cache-Control), the value sent is
the one from the target's header map; a default survives only when no entry
canonicalizes to its key. -/
theorem claim_C3_upload_headers (info : UploadFileInfo) (content : List Char)
    (hnd : (info.Headers.map fun kv => canonMIME kv.1).Nodup) :
    (∀ kv ∈ info.Headers,
      lookupAssoc (buildUploadRequest info content).headers (canonMIME kv.1)
        = some kv.2)
    ∧ ((∀ kv ∈ info.Headers, canonMIME kv.1 ≠ "Content-Type".data) →
        lookupAssoc (buildUploadRequest info content).headers "Content-Type".data
          = some info.ContentType)
    ∧ ((∀ kv ∈ info.Headers, canonMIME kv.1 ≠ "Cache-Control".data) →
        lookupAssoc (buildUploadRequest info content).headers "Cache-Control".data
          = some cacheControlValue) := by
  have hCT : canonMIME "Content-Type".data = "Content-Type".data := by decide
  have hCC : canonMIME "Cache-Control".data = "Cache-Control".data := by decide
  have hne : ("Content-Type".data : List Char) ≠ "Cache-Control".data := by decide
  have hbase : (buildUploadRequest info content).headers
      = applyHeaders [("Content-Type".data, info.ContentType),
          ("Cache-Control".data, cacheControlValue)] info.Headers := by
    show buildUploadHeaders info.ContentType info.Headers = _
    rw [buildUploadHeaders, headerSet, headerSet, hCT, hCC, setAssoc, setAssoc,
      if_neg hne]
    rfl
  refine ⟨?_, ?_, ?_⟩
  · intro kv hm
    obtain ⟨k, v⟩ := kv
    rw [hbase]
    exact lookup_applyHeaders_mem info.Headers _ k v hm hnd
  · intro hno
    rw [hbase, lookup_applyHeaders_not_mem info.Headers _ _ hno, lookupAssoc,
      if_pos rfl]
  · intro hno
    rw [hbase, lookup_applyHeaders_not_mem info.Headers _ _ hno, lookupAssoc,
      if_neg hne, lookupAssoc, if_pos rfl]

theorem claim_C3_upload_headers_witness :
    lookupAssoc
        (buildUploadRequest
          ⟨"http://u".data, "http://a".data,
            [("content-type".data, "text/plain".data),
             ("x-amz-acl".data, "private".data)],
            "image/png".data, 7⟩ "body".data).headers
        (canonMIME "content-type".data) = some "text/plain".data
    ∧ lookupAssoc
        (buildUploadRequest
          ⟨"http://u".data, "http://a".data,
            [("content-type".data, "text/plain".data),
             ("x-amz-acl".data, "private".data)],
            "image/png".data, 7⟩ "body".data).headers
        "Cache-Control".data = some cacheControlValue :=
  ⟨(claim_C3_upload_headers
      ⟨"http://u".data, "http://a".data,
        [("content-type".data, "text/plain".data),
         ("x-amz-acl".data, "private".data)],
        "image/png".data, 7⟩ "body".data (by decide)).1
      ("content-type".data, "text/plain".data) (by decide),
   (claim_C3_upload_headers
      ⟨"http://u".data, "http://a".data,
        [("content-type".data, "text/plain".data),
         ("x-amz-acl".data, "private".data)],
        "image/png".data, 7⟩ "body".data (by decide)).2.2 (by decide)⟩

/-- Claim C8: when stat succeeds, `GetFileInfo` returns the size the
filesystem reports together with the content type determined purely by the
path's lowercased extension through the fixed table (jpg/jpeg, png, gif,
webp, svg, bmp, mp4, webm, mov, pdf); any other or missing extension gives
application/octet-stream. -/
theorem claim_C8_file_info (stat : List Char → Option Int) (p : List Char)
    (n : Int) (h : stat p = some n) :
    GetFileInfo stat p = .ok (n, contentTypeFromExt (goToLower (extOf p)))
    ∧ contentTypeFromExt ".jpg".data = "image/jpeg".data
    ∧ contentTypeFromExt ".jpeg".data = "image/jpeg".data
    ∧ contentTypeFromExt ".png".data = "image/png".data
    ∧ contentTypeFromExt ".gif".data = "image/gif".data
    ∧ contentTypeFromExt ".webp".data = "image/webp".data
    ∧ contentTypeFromExt ".svg".data = "image/svg+xml".data
    ∧ contentTypeFromExt ".bmp".data = "image/bmp".data
    ∧ contentTypeFromExt ".mp4".data = "video/mp4".data
    ∧ contentTypeFromExt ".webm".data = "video/webm".data
    ∧ contentTypeFromExt ".mov".data = "video/quicktime".data
    ∧ contentTypeFromExt ".pdf".data = "application/pdf".data
    ∧ (∀ e : List Char,
        e ∉ [".jpg".data, ".jpeg".data, ".png".data, ".gif".data, ".webp".data,
          ".svg".data, ".bmp".data, ".mp4".data, ".webm".data, ".mov".data,
          ".pdf".data] →
        contentTypeFromExt e = "application/octet-stream".data) := by
  refine ⟨?_, by decide, by decide, by decide, by decide, by decide, by decide,
    by decide, by decide, by decide, by decide, by decide, ?_⟩
  · rw [GetFileInfo, h]
  · intro e he
    simp only [List.mem_cons, List.not_mem_nil, or_false, not_or] at he
    obtain ⟨h1, h2, h3, h4, h5, h6, h7, h8, h9, h10, h11⟩ := he
    rw [contentTypeFromExt, if_neg (not_or.mpr ⟨h1, h2⟩), if_neg h3, if_neg h4,
      if_neg h5, if_neg h6, if_neg h7, if_neg h8, if_neg h9, if_neg h10,
      if_neg h11]

theorem claim_C8_file_info_witness :
    GetFileInfo (fun _ => some 5) "dir/a.PNG".data
      = .ok (5, contentTypeFromExt (goToLower (extOf "dir/a.PNG".data)))
    ∧ (".xyz".data ∉
        [".jpg".data, ".jpeg".data, ".png".data, ".gif".data, ".webp".data,
          ".svg".data, ".bmp".data, ".mp4".data, ".webm".data, ".mov".data,
          ".pdf".data]
      ∧ contentTypeFromExt ".xyz".data = "application/octet-stream".data) :=
  ⟨(claim_C8_file_info (fun _ => some 5) "dir/a.PNG".data 5 rfl).1,
   by decide,
   (claim_C8_file_info (fun _ => some 5) "dir/a.PNG".data 5 rfl).2.2.2.2.2.2.2.2.2.2.2.2
     ".xyz".data (by decide)⟩

/-- Claim C10: upload never reads the target's AssetURL or Size — two targets
agreeing on UploadURL, Headers and ContentType but differing arbitrarily in
AssetURL and Size issue the identical HTTP request and return the same result
for the same content and the same network behaviour. -/
theorem claim_C10_upload_ignores (net : HTTPRequest → Nat × List Char)
    (i1 i2 : UploadFileInfo) (content : List Char)
    (h1 : i1.UploadURL = i2.UploadURL) (h2 : i1.Headers = i2.Headers)
    (h3 : i1.ContentType = i2.ContentType) :
    buildUploadRequest i1 content = buildUploadRequest i2 content
    ∧ UploadToPresignedURL net i1 content = UploadToPresignedURL net i2 content := by
  have hreq : buildUploadRequest i1 content = buildUploadRequest i2 content := by
    rw [buildUploadRequest, buildUploadRequest, h1, h2, h3]
  refine ⟨hreq, ?_⟩
  rw [UploadToPresignedURL, UploadToPresignedURL, hreq]

theorem claim_C10_upload_ignores_witness :
    buildUploadRequest
        ⟨"http://u".data, "http://asset1".data, [], "ct".data, 1⟩ "body".data
      = buildUploadRequest
        ⟨"http://u".data, "http://asset2".data, [], "ct".data, 999⟩ "body".data
    ∧ UploadToPresignedURL (fun _ => (200, []))
        ⟨"http://u".data, "http://asset1".data, [], "ct".data, 1⟩ "body".data
      = UploadToPresignedURL (fun _ => (200, []))
        ⟨"http://u".data, "http://asset2".data, [], "ct".data, 999⟩ "body".data :=
  claim_C10_upload_ignores (fun _ => (200, []))
    ⟨"http://u".data, "http://asset1".data, [], "ct".data, 1⟩
    ⟨"http://u".data, "http://asset2".data, [], "ct".data, 999⟩
    "body".data rfl rfl rfl

end Linctl
